import Mathlib

/-!
Verification of the pr2-transformation column-name grammar engine.

Strings are modelled as `List Char` (ASCII fragment).  Each definition below
is a shallow embedding of a function from `src/core/utils.py`,
`src/core/transformations.py` or `src/core/query_composition.py`; the doc
comment of each definition names its source.  Definitions whose doc comment
says "Modelled from the spec" follow the specification's words instead and
exist only to be compared with the code-derived definitions.
-/

namespace PR2

/-- Shorthand turning a string literal into the `List Char` model used here. -/
def s2l (s : String) : List Char := s.data

/-- ASCII lower-casing of one character, modelling Python `str.lower` on the
ASCII fragment. -/
def lowerChar (c : Char) : Char :=
  if 'A' ≤ c ∧ c ≤ 'Z' then Char.ofNat (c.toNat + 32) else c

/-- Lower-casing of a whole name (`var.lower()`). -/
def lowerStr (l : List Char) : List Char := l.map lowerChar

/-- Value of a decimal digit string, modelling Python `int(...)` on digits. -/
def digitsToNat (l : List Char) : Nat :=
  l.foldl (fun a c => a * 10 + (c.toNat - 48)) 0

/-- Decimal rendering of a natural number, modelling an f-string `f"{n}"`. -/
def natDigits (n : Nat) : List Char := Nat.toDigits 10 n

/-- Matcher for the version-token regex `_[vV]\d+(?=_|$)` at the head of the
list (from `extract_version_suffix` / `excise_version_from_column_name` in
`src/core/utils.py`).  Returns the digit run and the rest after it.  The
greedy `\d+` with the `(?=_|$)` lookahead forces the digit run to be maximal
and to be followed by `_` or the end of the string. -/
def vMatchAt : List Char → Option (List Char × List Char)
  | c :: v :: rest =>
    if c = '_' ∧ (v = 'v' ∨ v = 'V') then
      let ds := rest.takeWhile Char.isDigit
      let r2 := rest.dropWhile Char.isDigit
      if ds ≠ [] ∧ (r2 = [] ∨ r2.head? = some '_') then some (ds, r2) else none
    else none
  | _ => none

/-- `extract_version_suffix` from `src/core/utils.py`: leftmost occurrence of
`_[vV](\d+)(?=_|$)`, returned as `_v` plus the digits, or `""`. -/
def extract_version_suffix : List Char → List Char
  | [] => []
  | c :: cs =>
    match vMatchAt (c :: cs) with
    | some (ds, _) => '_' :: 'v' :: ds
    | none => extract_version_suffix cs

/-- Fuelled worker for `excise_version_from_column_name`: `re.sub` removes
every non-overlapping occurrence left to right, continuing after each match. -/
def exciseF : Nat → List Char → List Char
  | 0, l => l
  | _ + 1, [] => []
  | fuel + 1, c :: cs =>
    match vMatchAt (c :: cs) with
    | some (_, r2) => exciseF fuel r2
    | none => c :: exciseF fuel cs

/-- `excise_version_from_column_name` from `src/core/utils.py`:
`re.sub(r'_[vV]\d+(?=_|$)', '', column_name)`. -/
def excise_version_from_column_name (l : List Char) : List Char :=
  exciseF l.length l

/-- Modelled from the spec (claim C7's reading): remove exactly the one
occurrence identified by `extract_version_suffix`, i.e. only the first
version token, keeping everything after it untouched. -/
def strip_first_version : List Char → List Char
  | [] => []
  | c :: cs =>
    match vMatchAt (c :: cs) with
    | some (_, r2) => r2
    | none => c :: strip_first_version cs

/-- Iterate `strip_first_version` until it reaches a fixpoint (fuelled). -/
def stripIterF : Nat → List Char → List Char
  | 0, l => l
  | fuel + 1, l =>
    let l2 := strip_first_version l
    if l2 = l then l else stripIterF fuel l2

/-- Repeatedly remove the first version token until none changes the name. -/
def strip_version_iter (l : List Char) : List Char := stripIterF l.length l

/-- Matcher for one occurrence of the concept-ID regex `[dD]_(\d{9})` at the
head of the list (from `extract_ordered_concept_ids` in `src/core/utils.py`).
`\d{9}` consumes the first nine digits wherever at least nine are available;
there is no boundary lookahead in the source pattern. -/
def cidAt : List Char → Option (List Char × List Char)
  | d :: u :: rest =>
    if (d = 'd' ∨ d = 'D') ∧ u = '_' ∧ 9 ≤ rest.length ∧ (rest.take 9).all Char.isDigit
    then some (rest.take 9, rest.drop 9) else none
  | _ => none

/-- Fuelled worker for `extract_ordered_concept_ids`: `re.findall` collects
non-overlapping matches left to right, continuing after each match. -/
def cidsF : Nat → List Char → List (List Char)
  | 0, _ => []
  | _ + 1, [] => []
  | fuel + 1, c :: cs =>
    match cidAt (c :: cs) with
    | some (ds, rest) => ds :: cidsF fuel rest
    | none => cidsF fuel cs

/-- `extract_ordered_concept_ids` from `src/core/utils.py`:
`re.findall(r'[dD]_(\d{9})', var)`, order of appearance, duplicates kept. -/
def extract_ordered_concept_ids (l : List Char) : List (List Char) :=
  cidsF l.length l

/-- Modelled from the spec (claim C5, amended form): at every position of the
name, a `d`/`D` followed by `_` and at least nine digits contributes the first
nine of those digits, in order of appearance with duplicates preserved. -/
def spec_ordered_concept_ids : List Char → List (List Char)
  | [] => []
  | c :: cs =>
    match cidAt (c :: cs) with
    | some (ds, _) => ds :: spec_ordered_concept_ids cs
    | none => spec_ordered_concept_ids cs

/-- Boolean prefix test: `leadsWith p l` holds when `p` is a prefix of `l`
(used for the regex backreference `\1`). -/
def leadsWith : List Char → List Char → Bool
  | [], _ => true
  | _ :: _, [] => false
  | a :: as, b :: bs => a == b && leadsWith as bs

/-- Whether an optional character is a digit (used for the `(?!\d)` negative
lookahead: the position after the backreference must not hold a digit). -/
def optIsDigit : Option Char → Bool
  | some c => c.isDigit
  | none => false

/-- Matcher for `_(\d+)_\1(?!\d)` at the head of the list (from Case 2 of
`extract_loop_number` in `src/core/utils.py`).  The greedy group `(\d+)`
must be the maximal digit run since the regex requires a literal `_` after
it; the backreference then repeats the same digit string. -/
def pairAt : List Char → Option (List Char)
  | u :: r =>
    if u = '_' then
      let n := r.takeWhile Char.isDigit
      match r.dropWhile Char.isDigit with
      | w :: r3 =>
        if n ≠ [] ∧ w = '_' ∧ leadsWith n r3 = true ∧ optIsDigit ((r3.drop n.length).head?) = false
        then some n else none
      | [] => none
    else none
  | [] => none

/-- Leftmost match of `_(\d+)_\1(?!\d)` (the first element of
`re.findall(r'_(\d+)_\1(?!\d)', ...)`). -/
def pairScanStrict : List Char → Option (List Char)
  | [] => none
  | c :: cs =>
    match pairAt (c :: cs) with
    | some n => some n
    | none => pairScanStrict cs

/-- Matcher for `_(\d+)_\1` (no lookahead) at the head of the list, used for
the Case 3 guard of `extract_loop_number`. -/
def pairAtLoose : List Char → Bool
  | u :: r =>
    if u = '_' then
      let n := r.takeWhile Char.isDigit
      match r.dropWhile Char.isDigit with
      | w :: r3 => !n.isEmpty && (w == '_') && leadsWith n r3
      | [] => false
    else false
  | [] => false

/-- Whether `re.search(r'_(\d+)_\1', ...)` finds a match anywhere. -/
def pairScanLoose : List Char → Bool
  | [] => false
  | c :: cs => pairAtLoose (c :: cs) || pairScanLoose cs

/-- Matcher for `re.search(r'_(\d+)$', ...)`: the last underscore must be
followed by a nonempty all-digit run reaching the end of the name. -/
def trailingNum (l : List Char) : Option Nat :=
  let r := l.reverse
  let ds := r.takeWhile Char.isDigit
  if ds ≠ [] ∧ (r.drop ds.length).head? = some '_' then some (digitsToNat ds.reverse)
  else none

/-- Matcher for Case 1 of `extract_loop_number`:
`re.search(r'_v\d+_(\d+)_\1(?!\d)', var, re.IGNORECASE)` at the head: the
version-token prefix `_[vV]\d+` must be followed (hence `vMatchAt`'s `_`-or-end
condition is equivalent here) by a `_(\d+)_\1(?!\d)` loop pattern. -/
def case1At (l : List Char) : Option Nat :=
  match vMatchAt l with
  | some (_, r2) => (pairAt r2).map digitsToNat
  | none => none

/-- Leftmost match of the Case 1 pattern. -/
def case1Scan : List Char → Option Nat
  | [] => none
  | c :: cs =>
    match case1At (c :: cs) with
    | some n => some n
    | none => case1Scan cs

/-- `extract_loop_number` from `src/core/utils.py`: Case 1 version-adjacent
pattern on the raw name, then Case 2 first `_N_N` on the version-stripped
name, then Case 3 trailing `_N` fallback guarded by a loose `_N_N` match. -/
def extract_loop_number (l : List Char) : Option Nat :=
  match case1Scan l with
  | some n => some n
  | none =>
    let cleaned := excise_version_from_column_name l
    match pairScanStrict cleaned with
    | some ds => some (digitsToNat ds)
    | none => if pairScanLoose cleaned then trailingNum cleaned else none

/-- Modelled from the spec (claim C4's reading of `extractLoopNumber`): the
first `_N_N` occurrence in the version-stripped form decides the loop number,
with the trailing `_N` fallback, and `none` when neither pattern exists. -/
def spec_loop_number (l : List Char) : Option Nat :=
  let stripped := excise_version_from_column_name l
  match pairScanStrict stripped with
  | some ds => some (digitsToNat ds)
  | none => if pairScanLoose stripped then trailingNum stripped else none

/-! ### Purity classification (`is_pure_variable`) -/

/-- The whitespace characters removed by Python `str.strip()` (ASCII set). -/
def wsChars : List Char := [' ', '\t', '\n', '\r', '\x0b', '\x0c']

/-- Whether a character is stripped by `str.strip()`. -/
def isWs (c : Char) : Bool := wsChars.contains c

/-- Python `token.strip()`: drop leading and trailing whitespace. -/
def stripTok (t : List Char) : List Char :=
  ((t.dropWhile isWs).reverse.dropWhile isWs).reverse

/-- Python `var.split('_')`: the (possibly empty) runs between underscores. -/
def splitU : List Char → List (List Char)
  | [] => [[]]
  | c :: cs =>
    if c = '_' then [] :: splitU cs
    else
      match splitU cs with
      | [] => [[c]]
      | t :: ts => (c :: t) :: ts

/-- `constants.ALLOWED_NON_CID_VARIABLE_NAMES`. -/
def ALLOWED_NON_CID_VARIABLE_NAMES : List (List Char) := [s2l "connect_id"]

/-- `constants.FORBIDDEN_NON_CID_VARIABLE_NAMES`. -/
def FORBIDDEN_NON_CID_VARIABLE_NAMES : List (List Char) :=
  [s2l "token", s2l "uid", s2l "date", s2l "sha", s2l "siteAcronym", s2l "utm_source",
   s2l "verifiedSeen", s2l "id", s2l "pin", s2l "state_studyId", s2l "state_uid",
   s2l "firstSurveyCompletedSeen"]

/-- `constants.ALLOWED_NON_CID_SUBSTRINGS`. -/
def ALLOWED_NON_CID_SUBSTRINGS : List (List Char) := [s2l "num", s2l "state"]

/-- `constants.SUBSTRINGS_TO_FIX`. -/
def SUBSTRINGS_TO_FIX : List (List Char) := [s2l "_num", s2l "state_"]

/-- The per-token test of `is_pure_variable` in `src/core/utils.py`: after
stripping, a token passes when it is empty, the literal `d`, all digits, a
version token `v<digits>`, or in the allowed-substrings list. -/
def tokenOk (tok : List Char) : Bool :=
  let t := stripTok tok
  t.isEmpty || (lowerStr t == s2l "d") || t.all Char.isDigit ||
  (match t with
   | c :: rest => (lowerChar c == 'v') && !rest.isEmpty && rest.all Char.isDigit
   | [] => false) ||
  ALLOWED_NON_CID_SUBSTRINGS.contains (lowerStr t)

/-- `is_pure_variable` from `src/core/utils.py`. -/
def is_pure_variable (var : List Char) : Bool :=
  let lv := lowerStr var
  if ALLOWED_NON_CID_VARIABLE_NAMES.contains lv && !lv.isEmpty then true
  else if FORBIDDEN_NON_CID_VARIABLE_NAMES.contains lv then false
  else (splitU var).all tokenOk

/-! ### Substring excision and case standardisation -/

/-- Fuelled worker for Python `str.replace(pat, "")`: remove every
non-overlapping occurrence of `pat` left to right. -/
def replaceAllF : Nat → List Char → List Char → List Char
  | 0, _, l => l
  | _ + 1, _, [] => []
  | fuel + 1, pat, c :: cs =>
    if pat ≠ [] ∧ leadsWith pat (c :: cs) = true
    then replaceAllF fuel pat ((c :: cs).drop pat.length)
    else c :: replaceAllF fuel pat cs

/-- Python `l.replace(pat, "")`. -/
def replaceAll (l pat : List Char) : List Char := replaceAllF l.length pat l

/-- `excise_substrings` from `src/core/utils.py`: replace each configured
substring by the empty string, in list order. -/
def excise_substrings (var : List Char) (subs : List (List Char)) : List Char :=
  subs.foldl (fun acc s => replaceAll acc s) var

/-- `standardize_column_case` from `src/core/utils.py`. -/
def standardize_column_case (l : List Char) : List Char :=
  if l = s2l "Connect_ID" then l else lowerStr l

/-! ### Grouping (`group_vars_by_cid_and_loop_num`) -/

/-- A group key: the concept IDs of the name (compared as a set, modelling
`frozenset`), the loop number, and the version suffix. -/
abbrev GKey := List (List Char) × Nat × List Char

/-- Set equality of concept-ID lists, modelling `frozenset` equality. -/
def setEqCids (a b : List (List Char)) : Bool :=
  a.all (fun x => b.contains x) && b.all (fun x => a.contains x)

/-- Equality of group keys, modelling equality of the Python dict key
`(frozenset(ids), loop_number, version_suffix)`. -/
def keyEq (a b : GKey) : Bool :=
  setEqCids a.1 b.1 && (a.2.1 == b.2.1) && (a.2.2 == b.2.2)

/-- The key computed for one variable inside
`group_vars_by_cid_and_loop_num`: version suffix, version-stripped form,
concept IDs of the stripped form, loop number of the raw name; only names
with a nonempty concept-ID list and a loop number are grouped. -/
def varKey (v : List Char) : Option GKey :=
  let version := extract_version_suffix v
  let cleaned := excise_version_from_column_name v
  let cids := extract_ordered_concept_ids cleaned
  match extract_loop_number v with
  | some n => if cids ≠ [] then some (cids, n, version) else none
  | none => none

/-- Append a member to its key's entry (first entry with an equal key), or
add a new entry at the end — the insertion-order behaviour of
`defaultdict(list)`. -/
def insertGroup : List (GKey × List (List Char)) → GKey → List Char → List (GKey × List (List Char))
  | [], k, v => [(k, [v])]
  | (k2, vs) :: rest, k, v =>
    if keyEq k k2 then (k2, vs ++ [v]) :: rest else (k2, vs) :: insertGroup rest k v

/-- `group_vars_by_cid_and_loop_num` from `src/core/utils.py`, as an ordered
association list (Python dicts preserve insertion order). -/
def group_vars_by_cid_and_loop_num (vars : List (List Char)) : List (GKey × List (List Char)) :=
  vars.foldl (fun acc v =>
    match varKey v with
    | some k => insertGroup acc k v
    | none => acc) []

/-! ### The single-table coalesce renderer (`compose_coalesce_loop_variable_query`) -/

/-- Code-point comparison of names, modelling Python string `<=` as used by
`sorted(key=lambda x: x[0])`. -/
def lexLe : List Char → List Char → Bool
  | [], _ => true
  | _ :: _, [] => false
  | a :: as, b :: bs => if a = b then lexLe as bs else decide (a.toNat < b.toNat)

/-- Stable insertion into a sorted list. -/
def insSorted {α : Type} (le : α → α → Bool) (a : α) : List α → List α
  | [] => [a]
  | b :: bs => if le a b then a :: b :: bs else b :: insSorted le a bs

/-- Stable insertion sort, modelling Python's stable `sorted`. -/
def isort {α : Type} (le : α → α → Bool) : List α → List α
  | [] => []
  | x :: xs => insSorted le x (isort le xs)

/-- The output name synthesised for one loop-variable group
(`compose_coalesce_loop_variable_query`, and the raw name of
`build_loop_variable_clauses`): `d_<cid>` for each ordered concept ID of the
first member's version-stripped form, then the loop number, then the version
suffix. -/
def synthRawName (k : GKey) (var_list : List (List Char)) : List Char :=
  let first := var_list.headD []
  let cleaned := excise_version_from_column_name first
  let ordered := extract_ordered_concept_ids cleaned
  List.intercalate (s2l "_") (ordered.map (fun cid => s2l "d_" ++ cid)) ++
    ('_' :: natDigits k.2.1) ++ k.2.2

/-- Lower-casing applied to the fetched column list in
`compose_coalesce_loop_variable_query` (`Connect_ID` kept as is). -/
def compose_normalize (v : List Char) : List Char :=
  if v = s2l "Connect_ID" then v else lowerStr v

/-- The `(new_var_name, clause)` pairs built by
`compose_coalesce_loop_variable_query` (lines 179-216 of
`src/core/query_composition.py`), sorted by output name.  No duplicate
check of output names is performed there. -/
def composePairs (cols0 : List (List Char)) : List (List Char × List Char) :=
  let grouped := group_vars_by_cid_and_loop_num cols0
  let allLoop := grouped.foldr (fun g acc => g.2 ++ acc) []
  let nonLoop := cols0.filter (fun v => decide (v ∉ allLoop ∧ v ≠ s2l "Connect_ID"))
  let loopPairs := grouped.map (fun g =>
    let name := synthRawName g.1 g.2
    let clause :=
      if g.2.length = 1 then g.2.headD [] ++ s2l " AS " ++ name
      else s2l "COALESCE(" ++ List.intercalate (s2l ", ") g.2 ++ s2l ") AS " ++ name
    (name, clause))
  isort (fun a b => lexLe a.1 b.1) (loopPairs ++ nonLoop.map (fun v => (v, v)))

/-- `compose_coalesce_loop_variable_query`'s plan construction: lower-case
the column list, fail (`none`, modelling the raised `ValueError`) when any
name is impure, otherwise return the sorted `(output name, clause)` pairs. -/
def compose_coalesce_plan (cols0 : List (List Char)) :
    Option (List (List Char × List Char)) :=
  let vars := cols0.map compose_normalize
  if vars.all is_pure_variable then some (composePairs vars) else none

/-- The output-name column list of the rendered single-table query: the SQL
template emits `Connect_ID` first, then the clause names in order. -/
def composeOutputNames (cols0 : List (List Char)) : Option (List (List Char)) :=
  (compose_coalesce_plan cols0).map (fun ps => s2l "Connect_ID" :: ps.map (fun p => p.1))

/-! ### The guarded clause builder (`build_loop_variable_clauses`) -/

/-- The emit loop shared by the two passes of `build_loop_variable_clauses`:
for each item compute `((output name, clause), lower-cased origin marks)`;
skip the item when the lower-cased output name was already claimed
("Skipping output column ... as it would create a duplicate"), otherwise
emit it and record the name and marks in the processed set. -/
def emitGuarded {β : Type} (mk : β → (List Char × List Char) × List (List Char)) :
    List β → List (List Char) → List (List Char × List Char) × List (List Char)
  | [], processed => ([], processed)
  | b :: rest, processed =>
    let r := mk b
    if lowerStr r.1.1 ∈ processed then emitGuarded mk rest processed
    else
      let out := emitGuarded mk rest (processed ++ lowerStr r.1.1 :: r.2)
      (r.1 :: out.1, out.2)

/-- Name, clause and processed-marks for one loop-variable group in
`build_loop_variable_clauses` (lines 463-494 of
`src/core/transformations.py`). -/
def mkLoopPair (g : GKey × List (List Char)) : (List Char × List Char) × List (List Char) :=
  let var_list := g.2
  let name := standardize_column_case (excise_substrings (synthRawName g.1 var_list) SUBSTRINGS_TO_FIX)
  let clause :=
    if var_list.length = 1 then var_list.headD [] ++ s2l " AS " ++ name
    else s2l "COALESCE(" ++ List.intercalate (s2l ", ") var_list ++ s2l ") AS " ++ name
  ((name, clause), var_list.map lowerStr)

/-- Name, clause and processed-marks for one non-loop variable in
`build_loop_variable_clauses` (lines 496-515). -/
def mkNonLoopPair (v : List Char) : (List Char × List Char) × List (List Char) :=
  let name := standardize_column_case (excise_substrings v SUBSTRINGS_TO_FIX)
  let clause := if v ≠ name then v ++ s2l " AS " ++ name else v
  ((name, clause), [lowerStr v])

/-- `build_loop_variable_clauses` from `src/core/transformations.py`, as
`(output name, clause)` pairs plus the updated processed set: drop
already-processed columns, mark impure columns as processed (warn and skip —
no error is raised), group the remaining pure columns, then emit guarded
loop clauses followed by guarded non-loop clauses. -/
def build_loop_variable_clauses (all_columns : List (List Char))
    (processed : List (List Char)) :
    List (List Char × List Char) × List (List Char) :=
  let remaining := all_columns.filter (fun c => decide (lowerStr c ∉ processed))
  let processed1 := processed ++ (remaining.filter (fun v => !is_pure_variable v)).map lowerStr
  let valid := remaining.filter (fun c => decide (lowerStr c ∉ processed1) && is_pure_variable c)
  let grouped := group_vars_by_cid_and_loop_num valid
  let allLoop := grouped.foldr (fun g acc => g.2 ++ acc) []
  let nonLoop := valid.filter (fun v => decide (v ∉ allLoop))
  let r1 := emitGuarded mkLoopPair grouped processed1
  let r2 := emitGuarded mkNonLoopPair nonLoop r1.2
  (r1.1 ++ r2.1, r2.2)

/-! ### The table-merge renderers -/

/-- The COALESCE argument list built for one common column in
`create_or_replace_table_with_outer_join` (`src/core/query_composition.py`
lines 68-73): `alias_order = aliases[::-1]`, one `alias.col` per alias. -/
def outer_join_coalesce_args (aliases : List (List Char)) (col : List Char) :
    List (List Char) :=
  aliases.reverse.map (fun al => al ++ '.' :: col)

/-- The rendered clause `COALESCE(...) AS col` for one common column in
`create_or_replace_table_with_outer_join`. -/
def outer_join_coalesce_clause (aliases : List (List Char)) (col : List Char) : List Char :=
  s2l "COALESCE(" ++ List.intercalate (s2l ", ") (outer_join_coalesce_args aliases col) ++
    s2l ") AS " ++ col

/-- The COALESCE parts built for one common column in `merge_table_versions`
(`src/core/transformations.py` lines 90-96): aliases in table order, each
with its table's original-cased column (`caseOf`). -/
def merge_coalesce_parts (aliases : List (List Char)) (caseOf : List Char → List Char) :
    List (List Char) :=
  aliases.map (fun al => al ++ '.' :: caseOf al)

/-- SQL `COALESCE` semantics: the first non-null argument value. -/
def coalesce_first_non_null {α : Type} (vals : List (Option α)) : Option α :=
  vals.findSome? id

/-- The last non-null value of a list, used to state which table "wins". -/
def lastSome {α : Type} : List (Option α) → Option α
  | [] => none
  | v :: vs =>
    match lastSome vs with
    | some b => some b
    | none => v

/-! ## Lemmas about the version-token matcher -/

theorem vMatchAt_cons_cons (c v : Char) (rest : List Char) :
    vMatchAt (c :: v :: rest) =
      if c = '_' ∧ (v = 'v' ∨ v = 'V') then
        if rest.takeWhile Char.isDigit ≠ [] ∧
            (rest.dropWhile Char.isDigit = [] ∨ (rest.dropWhile Char.isDigit).head? = some '_')
        then some (rest.takeWhile Char.isDigit, rest.dropWhile Char.isDigit) else none
      else none := rfl

theorem vMatchAt_none_head {c : Char} {cs : List Char} (h : c ≠ '_') :
    vMatchAt (c :: cs) = none := by
  cases cs with
  | nil => rfl
  | cons v rest => rw [vMatchAt_cons_cons]; simp [h]

theorem vMatchAt_none_second {c v : Char} {rest : List Char}
    (h : ¬(v = 'v' ∨ v = 'V')) : vMatchAt (c :: v :: rest) = none := by
  rw [vMatchAt_cons_cons]; simp [h]

theorem vMatchAt_eq_some {l ds r2 : List Char} (h : vMatchAt l = some (ds, r2)) :
    ∃ v rest, l = '_' :: v :: rest ∧ (v = 'v' ∨ v = 'V') ∧
      ds = rest.takeWhile Char.isDigit ∧ r2 = rest.dropWhile Char.isDigit ∧
      ds ≠ [] ∧ (r2 = [] ∨ r2.head? = some '_') := by
  match l with
  | [] => simp [vMatchAt] at h
  | [c] => simp [vMatchAt] at h
  | c :: v :: rest =>
    rw [vMatchAt_cons_cons] at h
    split_ifs at h with h1 h2
    · obtain ⟨rfl, rfl⟩ : ds = rest.takeWhile Char.isDigit ∧ r2 = rest.dropWhile Char.isDigit := by
        constructor <;> { injection h with h; cases h; rfl }
      exact ⟨v, rest, by rw [h1.1], h1.2, rfl, rfl, h2.1, h2.2⟩

theorem vMatchAt_length {l ds r2 : List Char} (h : vMatchAt l = some (ds, r2)) :
    r2.length + 2 ≤ l.length := by
  obtain ⟨v, rest, rfl, -, -, hr2, -, -⟩ := vMatchAt_eq_some h
  subst hr2
  have := (List.dropWhile_sublist (p := Char.isDigit) (l := rest)).length_le
  simp only [List.length_cons]
  omega

/-! ## Unfolding equations for `excise_version_from_column_name` -/

theorem exciseF_nil (f : Nat) : exciseF f [] = [] := by cases f <;> rfl

theorem exciseF_congr :
    ∀ (f g : Nat) (l : List Char), l.length ≤ f → l.length ≤ g → exciseF f l = exciseF g l := by
  intro f
  induction f with
  | zero =>
    intro g l hf _
    have : l = [] := List.length_eq_zero.mp (Nat.le_zero.mp hf)
    subst this; rw [exciseF_nil, exciseF_nil]
  | succ f ih =>
    intro g l hf hg
    cases l with
    | nil => rw [exciseF_nil, exciseF_nil]
    | cons c cs =>
      cases g with
      | zero => simp at hg
      | succ g =>
        show (match vMatchAt (c :: cs) with
              | some (_, r2) => exciseF f r2
              | none => c :: exciseF f cs) =
             (match vMatchAt (c :: cs) with
              | some (_, r2) => exciseF g r2
              | none => c :: exciseF g cs)
        cases hm : vMatchAt (c :: cs) with
        | some p =>
          obtain ⟨ds, r2⟩ := p
          have hlen := vMatchAt_length hm
          simp only [List.length_cons] at hf hg hlen
          exact ih g r2 (by omega) (by omega)
        | none =>
          simp only [List.length_cons] at hf hg
          rw [ih g cs (by omega) (by omega)]

theorem excise_nil : excise_version_from_column_name [] = [] := rfl

theorem excise_cons_some {c : Char} {cs ds r2 : List Char}
    (h : vMatchAt (c :: cs) = some (ds, r2)) :
    excise_version_from_column_name (c :: cs) = excise_version_from_column_name r2 := by
  have hlen := vMatchAt_length h
  show exciseF (cs.length + 1) (c :: cs) = exciseF r2.length r2
  have : exciseF (cs.length + 1) (c :: cs) = exciseF cs.length r2 := by
    show (match vMatchAt (c :: cs) with
          | some (_, r2) => exciseF cs.length r2
          | none => c :: exciseF cs.length cs) = _
    rw [h]
  rw [this]
  exact exciseF_congr cs.length r2.length r2 (by simp at hlen; omega) (Nat.le_refl _)

theorem excise_cons_none {c : Char} {cs : List Char} (h : vMatchAt (c :: cs) = none) :
    excise_version_from_column_name (c :: cs) = c :: excise_version_from_column_name cs := by
  show exciseF (cs.length + 1) (c :: cs) = c :: exciseF cs.length cs
  show (match vMatchAt (c :: cs) with
        | some (_, r2) => exciseF cs.length r2
        | none => c :: exciseF cs.length cs) = _
  rw [h]

/-! ## Small list facts used by the preservation arguments -/

theorem takeWhile_append_all {p : Char → Bool} :
    ∀ {ds r : List Char}, (∀ c ∈ ds, p c = true) →
      (ds ++ r).takeWhile p = ds ++ r.takeWhile p := by
  intro ds
  induction ds with
  | nil => intro r _; rfl
  | cons a as ih =>
    intro r h
    have ha : p a = true := h a (List.mem_cons_self a as)
    simp only [List.cons_append, List.takeWhile_cons, ha, if_true]
    rw [ih fun c hc => h c (List.mem_cons_of_mem a hc)]

theorem dropWhile_append_all {p : Char → Bool} :
    ∀ {ds r : List Char}, (∀ c ∈ ds, p c = true) →
      (ds ++ r).dropWhile p = r.dropWhile p := by
  intro ds
  induction ds with
  | nil => intro r _; rfl
  | cons a as ih =>
    intro r h
    have ha : p a = true := h a (List.mem_cons_self a as)
    simp only [List.cons_append, List.dropWhile_cons, ha, if_true]
    exact ih fun c hc => h c (List.mem_cons_of_mem a hc)

theorem dropWhile_head_false {p : Char → Bool} :
    ∀ {l b : List Char} {c : Char}, l.dropWhile p = c :: b → p c = false := by
  intro l
  induction l with
  | nil => intro b c h; simp at h
  | cons a as ih =>
    intro b c h
    rw [List.dropWhile_cons] at h
    split_ifs at h with ha
    · exact ih h
    · injection h with h1 _; rw [← h1]; exact Bool.eq_false_iff.mpr ha

theorem mem_takeWhile_pred {p : Char → Bool} :
    ∀ {l : List Char} {c : Char}, c ∈ l.takeWhile p → p c = true := by
  intro l
  induction l with
  | nil => intro c h; simp at h
  | cons a as ih =>
    intro c h
    rw [List.takeWhile_cons] at h
    split_ifs at h with ha
    · rcases List.mem_cons.mp h with rfl | h2
      · exact ha
      · exact ih h2
    · simp at h

theorem isDigit_ne_underscore {c : Char} (h : c.isDigit = true) : c ≠ '_' := by
  rintro rfl; simp [Char.isDigit] at h

theorem isDigit_ne_v {c : Char} (h : c.isDigit = true) : ¬(c = 'v' ∨ c = 'V') := by
  rintro (rfl | rfl) <;> simp [Char.isDigit] at h

/-! ## A failed version match stays failed after removing later matches -/

theorem vMatchAt_none_preserved (g : List Char → List Char)
    (h0 : g [] = [])
    (h1 : ∀ m, g m = [] ∨ (g m).head? = m.head? ∨ (g m).head? = some '_')
    (h2 : ∀ ds r, (∀ c ∈ ds, c ≠ '_') → g (ds ++ r) = ds ++ g r)
    {c : Char} {cs : List Char} (h : vMatchAt (c :: cs) = none) :
    vMatchAt (c :: g cs) = none := by
  by_cases hc : c = '_'
  · subst hc
    cases cs with
    | nil => rw [h0]; rfl
    | cons v0 cs2 =>
      by_cases hv : v0 = 'v' ∨ v0 = 'V'
      · have hg : g (v0 :: cs2) = v0 :: g cs2 := by
          have := h2 [v0] cs2 (by
            intro x hx
            rcases List.mem_singleton.mp hx with rfl
            rcases hv with rfl | rfl <;> decide)
          simpa using this
        rw [hg]
        rw [vMatchAt_cons_cons] at h
        rw [if_pos ⟨rfl, hv⟩] at h
        have hfail : ¬(cs2.takeWhile Char.isDigit ≠ [] ∧
            (cs2.dropWhile Char.isDigit = [] ∨ (cs2.dropWhile Char.isDigit).head? = some '_')) := by
          intro hcond
          rw [if_pos hcond] at h
          exact Option.some_ne_none _ h
        push_neg at hfail
        rw [vMatchAt_cons_cons, if_pos ⟨rfl, hv⟩]
        by_cases hds : cs2.takeWhile Char.isDigit = []
        · -- the digit run was empty: the head of `cs2` is not a digit, and
          -- `g` keeps the head or turns it into `_` or nothing
          have hhead : ∀ d, (g cs2).head? = some d → d.isDigit = false := by
            intro d hd
            rcases h1 cs2 with hnil | hkeep | hus
            · rw [hnil] at hd; simp at hd
            · rw [hkeep] at hd
              cases cs2 with
              | nil => simp at hd
              | cons a as =>
                simp only [List.head?_cons, Option.some.injEq] at hd
                rw [← hd]
                by_cases hpa : a.isDigit = true
                · rw [List.takeWhile_cons, if_pos hpa] at hds
                  simp at hds
                · exact Bool.eq_false_iff.mpr hpa
            · rw [hus] at hd
              injection hd with hd
              subst hd; decide
          have htk : (g cs2).takeWhile Char.isDigit = [] := by
            rcases hgcs : g cs2 with _ | ⟨a, as⟩
            · rfl
            · have ha : a.isDigit = false := hhead a (by rw [hgcs]; rfl)
              rw [List.takeWhile_cons, ha]
              simp
          rw [if_neg]
          rintro ⟨hne, -⟩
          exact hne htk
        · -- nonempty digit run: the blocking character after the run survives `g`
          have hfail2 := hfail hds
          rcases hr2 : cs2.dropWhile Char.isDigit with _ | ⟨b, t2⟩
          · exact absurd hr2 hfail2.1
          · have hb_nd : b.isDigit = false := dropWhile_head_false hr2
            have hb_nu : b ≠ '_' := by
              have := hfail2.2
              rw [hr2, List.head?_cons] at this
              intro hb; exact this (by rw [hb])
            have hsplit : cs2 = cs2.takeWhile Char.isDigit ++ (b :: t2) := by
              conv_lhs => rw [← List.takeWhile_append_dropWhile (p := Char.isDigit) (l := cs2)]
              rw [hr2]
            have hdig : ∀ x ∈ cs2.takeWhile Char.isDigit, x.isDigit = true :=
              fun x hx => mem_takeWhile_pred hx
            have hgb : g (b :: t2) = b :: g t2 := by
              have := h2 [b] t2 (by
                intro x hx; rcases List.mem_singleton.mp hx with rfl; exact hb_nu)
              simpa using this
            have hgcs2 : g cs2 = cs2.takeWhile Char.isDigit ++ (b :: g t2) := by
              conv_lhs => rw [hsplit]
              rw [h2 _ _ (fun x hx => isDigit_ne_underscore (hdig x hx)), hgb]
            have hdrop : (cs2.takeWhile Char.isDigit ++ (b :: g t2)).dropWhile Char.isDigit
                = b :: g t2 := by
              rw [dropWhile_append_all hdig, List.dropWhile_cons, hb_nd]
              simp
            rw [hgcs2, if_neg]
            rintro ⟨-, h' | h'⟩
            · rw [hdrop] at h'
              exact List.cons_ne_nil _ _ h'
            · rw [hdrop, List.head?_cons] at h'
              exact hb_nu (Option.some.inj h')
      · -- second character is not v/V; `g` keeps it (or yields `[]` or `_`)
        rcases h1 (v0 :: cs2) with hnil | hkeep | hus
        · rw [hnil]; rfl
        · rcases hgcs : g (v0 :: cs2) with _ | ⟨a, as⟩
          · rfl
          · rw [hgcs, List.head?_cons] at hkeep
            simp only [List.head?_cons, Option.some.injEq] at hkeep
            subst hkeep
            exact vMatchAt_none_second hv
        · rcases hgcs : g (v0 :: cs2) with _ | ⟨a, as⟩
          · rfl
          · rw [hgcs, List.head?_cons] at hus
            injection hus with hus
            subst hus
            exact vMatchAt_none_second (by decide)
  · exact vMatchAt_none_head hc

/-! ## Structural properties of `excise_version_from_column_name` -/

theorem excise_head_aux :
    ∀ (n : Nat) (l : List Char), l.length ≤ n →
      excise_version_from_column_name l = [] ∨
      (excise_version_from_column_name l).head? = l.head? ∨
      (excise_version_from_column_name l).head? = some '_' := by
  intro n
  induction n with
  | zero =>
    intro l hl
    have : l = [] := List.length_eq_zero.mp (Nat.le_zero.mp hl)
    subst this
    exact Or.inl rfl
  | succ n ih =>
    intro l hl
    cases l with
    | nil => exact Or.inl rfl
    | cons c cs =>
      cases hm : vMatchAt (c :: cs) with
      | some p =>
        obtain ⟨ds, r2⟩ := p
        rw [excise_cons_some hm]
        have hlen := vMatchAt_length hm
        simp only [List.length_cons] at hl hlen
        obtain ⟨-, -, -, -, -, -, -, hr2⟩ := vMatchAt_eq_some hm
        rcases ih r2 (by omega) with h' | h' | h'
        · exact Or.inl h'
        · rcases hr2 with rfl | hr2u
          · rw [excise_nil] at h' ⊢
            exact Or.inl rfl
          · exact Or.inr (Or.inr (h'.trans hr2u))
        · exact Or.inr (Or.inr h')
      | none =>
        rw [excise_cons_none hm]
        exact Or.inr (Or.inl rfl)

theorem excise_head (l : List Char) :
    excise_version_from_column_name l = [] ∨
    (excise_version_from_column_name l).head? = l.head? ∨
    (excise_version_from_column_name l).head? = some '_' :=
  excise_head_aux l.length l (Nat.le_refl _)

theorem excise_skip :
    ∀ (ds r : List Char), (∀ c ∈ ds, c ≠ '_') →
      excise_version_from_column_name (ds ++ r) =
        ds ++ excise_version_from_column_name r := by
  intro ds
  induction ds with
  | nil => intro r _; rfl
  | cons a as ih =>
    intro r h
    have ha : a ≠ '_' := h a (List.mem_cons_self a as)
    rw [List.cons_append, excise_cons_none (vMatchAt_none_head ha)]
    rw [ih r fun c hc => h c (List.mem_cons_of_mem a hc), List.cons_append]

theorem vMatchAt_none_excise {c : Char} {cs : List Char} (h : vMatchAt (c :: cs) = none) :
    vMatchAt (c :: excise_version_from_column_name cs) = none :=
  vMatchAt_none_preserved excise_version_from_column_name excise_nil
    excise_head excise_skip h

/-! ## Structural properties of `strip_first_version` -/

theorem sfv_head (l : List Char) :
    strip_first_version l = [] ∨
    (strip_first_version l).head? = l.head? ∨
    (strip_first_version l).head? = some '_' := by
  cases l with
  | nil => exact Or.inl rfl
  | cons c cs =>
    cases hm : vMatchAt (c :: cs) with
    | some p =>
      obtain ⟨ds, r2⟩ := p
      have : strip_first_version (c :: cs) = r2 := by
        show (match vMatchAt (c :: cs) with
              | some (_, r2) => r2
              | none => c :: strip_first_version cs) = r2
        rw [hm]
      rw [this]
      obtain ⟨-, -, -, -, -, -, -, hr2⟩ := vMatchAt_eq_some hm
      rcases hr2 with rfl | hr2u
      · exact Or.inl rfl
      · exact Or.inr (Or.inr hr2u)
    | none =>
      have : strip_first_version (c :: cs) = c :: strip_first_version cs := by
        show (match vMatchAt (c :: cs) with
              | some (_, r2) => r2
              | none => c :: strip_first_version cs) = _
        rw [hm]
      rw [this]
      exact Or.inr (Or.inl rfl)

theorem sfv_cons_some {c : Char} {cs ds r2 : List Char}
    (h : vMatchAt (c :: cs) = some (ds, r2)) :
    strip_first_version (c :: cs) = r2 := by
  show (match vMatchAt (c :: cs) with
        | some (_, r2) => r2
        | none => c :: strip_first_version cs) = r2
  rw [h]

theorem sfv_cons_none {c : Char} {cs : List Char} (h : vMatchAt (c :: cs) = none) :
    strip_first_version (c :: cs) = c :: strip_first_version cs := by
  show (match vMatchAt (c :: cs) with
        | some (_, r2) => r2
        | none => c :: strip_first_version cs) = _
  rw [h]

theorem sfv_skip :
    ∀ (ds r : List Char), (∀ c ∈ ds, c ≠ '_') →
      strip_first_version (ds ++ r) = ds ++ strip_first_version r := by
  intro ds
  induction ds with
  | nil => intro r _; rfl
  | cons a as ih =>
    intro r h
    have ha : a ≠ '_' := h a (List.mem_cons_self a as)
    rw [List.cons_append, sfv_cons_none (vMatchAt_none_head ha)]
    rw [ih r fun c hc => h c (List.mem_cons_of_mem a hc), List.cons_append]

theorem vMatchAt_none_sfv {c : Char} {cs : List Char} (h : vMatchAt (c :: cs) = none) :
    vMatchAt (c :: strip_first_version cs) = none :=
  vMatchAt_none_preserved strip_first_version rfl sfv_head sfv_skip h

/-! ## Main auxiliary inductions for the version-stripping claims -/

theorem excise_idem_aux :
    ∀ (n : Nat) (l : List Char), l.length ≤ n →
      excise_version_from_column_name (excise_version_from_column_name l) =
        excise_version_from_column_name l := by
  intro n
  induction n with
  | zero =>
    intro l hl
    have : l = [] := List.length_eq_zero.mp (Nat.le_zero.mp hl)
    subst this; rfl
  | succ n ih =>
    intro l hl
    cases l with
    | nil => rfl
    | cons c cs =>
      cases hm : vMatchAt (c :: cs) with
      | some p =>
        obtain ⟨ds, r2⟩ := p
        have hlen := vMatchAt_length hm
        simp only [List.length_cons] at hl hlen
        rw [excise_cons_some hm]
        exact ih r2 (by omega)
      | none =>
        simp only [List.length_cons] at hl
        rw [excise_cons_none hm,
            excise_cons_none (vMatchAt_none_excise hm),
            ih cs (by omega)]

theorem evs_nil_inv {c : Char} {cs : List Char}
    (h : extract_version_suffix (c :: cs) = []) :
    vMatchAt (c :: cs) = none ∧ extract_version_suffix cs = [] := by
  cases hm : vMatchAt (c :: cs) with
  | some p =>
    obtain ⟨ds, r2⟩ := p
    have : extract_version_suffix (c :: cs) = '_' :: 'v' :: ds := by
      show (match vMatchAt (c :: cs) with
            | some (ds, _) => '_' :: 'v' :: ds
            | none => extract_version_suffix cs) = _
      rw [hm]
    rw [this] at h
    simp at h
  | none =>
    have : extract_version_suffix (c :: cs) = extract_version_suffix cs := by
      show (match vMatchAt (c :: cs) with
            | some (ds, _) => '_' :: 'v' :: ds
            | none => extract_version_suffix cs) = _
      rw [hm]
    rw [this] at h
    exact ⟨rfl, h⟩

theorem evs_cons_none {c : Char} {cs : List Char} (h : vMatchAt (c :: cs) = none) :
    extract_version_suffix (c :: cs) = extract_version_suffix cs := by
  show (match vMatchAt (c :: cs) with
        | some (ds, _) => '_' :: 'v' :: ds
        | none => extract_version_suffix cs) = _
  rw [h]

theorem evs_excise_aux :
    ∀ (n : Nat) (l : List Char), l.length ≤ n →
      extract_version_suffix (excise_version_from_column_name l) = [] := by
  intro n
  induction n with
  | zero =>
    intro l hl
    have : l = [] := List.length_eq_zero.mp (Nat.le_zero.mp hl)
    subst this; rfl
  | succ n ih =>
    intro l hl
    cases l with
    | nil => rfl
    | cons c cs =>
      cases hm : vMatchAt (c :: cs) with
      | some p =>
        obtain ⟨ds, r2⟩ := p
        have hlen := vMatchAt_length hm
        simp only [List.length_cons] at hl hlen
        rw [excise_cons_some hm]
        exact ih r2 (by omega)
      | none =>
        simp only [List.length_cons] at hl
        rw [excise_cons_none hm, evs_cons_none (vMatchAt_none_excise hm)]
        exact ih cs (by omega)

theorem sfv_fix_imp_excise :
    ∀ (n : Nat) (l : List Char), l.length ≤ n → strip_first_version l = l →
      excise_version_from_column_name l = l := by
  intro n
  induction n with
  | zero =>
    intro l hl _
    have : l = [] := List.length_eq_zero.mp (Nat.le_zero.mp hl)
    subst this; rfl
  | succ n ih =>
    intro l hl hfix
    cases l with
    | nil => rfl
    | cons c cs =>
      cases hm : vMatchAt (c :: cs) with
      | some p =>
        obtain ⟨ds, r2⟩ := p
        have hlen := vMatchAt_length hm
        rw [sfv_cons_some hm] at hfix
        have : r2.length = cs.length + 1 := by rw [hfix]; rfl
        simp only [List.length_cons] at hlen
        omega
      | none =>
        rw [sfv_cons_none hm] at hfix
        injection hfix with _ hfix2
        simp only [List.length_cons] at hl
        rw [excise_cons_none hm, ih cs (by omega) hfix2]

theorem sfv_length_lt :
    ∀ (n : Nat) (l : List Char), l.length ≤ n → strip_first_version l ≠ l →
      (strip_first_version l).length < l.length := by
  intro n
  induction n with
  | zero =>
    intro l hl hne
    have : l = [] := List.length_eq_zero.mp (Nat.le_zero.mp hl)
    subst this; exact absurd rfl hne
  | succ n ih =>
    intro l hl hne
    cases l with
    | nil => exact absurd rfl hne
    | cons c cs =>
      cases hm : vMatchAt (c :: cs) with
      | some p =>
        obtain ⟨ds, r2⟩ := p
        have hlen := vMatchAt_length hm
        rw [sfv_cons_some hm]
        omega
      | none =>
        rw [sfv_cons_none hm] at hne ⊢
        simp only [List.length_cons] at hl ⊢
        have : strip_first_version cs ≠ cs := by
          intro hcs; exact hne (by rw [hcs])
        have := ih cs (by omega) this
        omega

theorem excise_sfv :
    ∀ (n : Nat) (l : List Char), l.length ≤ n →
      excise_version_from_column_name (strip_first_version l) =
        excise_version_from_column_name l := by
  intro n
  induction n with
  | zero =>
    intro l hl
    have : l = [] := List.length_eq_zero.mp (Nat.le_zero.mp hl)
    subst this; rfl
  | succ n ih =>
    intro l hl
    cases l with
    | nil => rfl
    | cons c cs =>
      cases hm : vMatchAt (c :: cs) with
      | some p =>
        obtain ⟨ds, r2⟩ := p
        rw [sfv_cons_some hm, excise_cons_some hm]
      | none =>
        simp only [List.length_cons] at hl
        rw [sfv_cons_none hm, excise_cons_none hm,
            excise_cons_none (vMatchAt_none_sfv hm), ih cs (by omega)]

theorem stripIterF_eq_excise :
    ∀ (fuel : Nat) (l : List Char), l.length ≤ fuel →
      stripIterF fuel l = excise_version_from_column_name l := by
  intro fuel
  induction fuel with
  | zero =>
    intro l hl
    have : l = [] := List.length_eq_zero.mp (Nat.le_zero.mp hl)
    subst this; rfl
  | succ fuel ih =>
    intro l hl
    show (if strip_first_version l = l then l else stripIterF fuel (strip_first_version l)) = _
    by_cases hfix : strip_first_version l = l
    · rw [if_pos hfix, sfv_fix_imp_excise l.length l (Nat.le_refl _) hfix]
    · rw [if_neg hfix]
      have hlt := sfv_length_lt l.length l (Nat.le_refl _) hfix
      rw [ih (strip_first_version l) (by omega)]
      exact excise_sfv l.length l (Nat.le_refl _)

/-! ## Lemmas for the loop-number claim (C4) -/

theorem case1At_some_vMatch {l : List Char} {m : Nat} (h : case1At l = some m) :
    ∃ p, vMatchAt l = some p := by
  cases hv : vMatchAt l with
  | some p => exact ⟨p, rfl⟩
  | none =>
    rw [case1At, hv] at h
    exact absurd h (Option.noConfusion)

theorem case1Scan_none_of_evs :
    ∀ {l : List Char}, extract_version_suffix l = [] → case1Scan l = none := by
  intro l
  induction l with
  | nil => intro _; rfl
  | cons c cs ih =>
    intro h
    obtain ⟨hm, hcs⟩ := evs_nil_inv h
    show (match case1At (c :: cs) with
          | some n => some n
          | none => case1Scan cs) = none
    cases h1 : case1At (c :: cs) with
    | some m =>
      obtain ⟨p, hp⟩ := case1At_some_vMatch h1
      rw [hm] at hp
      exact absurd hp (Option.noConfusion)
    | none => exact ih hcs

theorem excise_eq_self_of_evs :
    ∀ (n : Nat) (l : List Char), l.length ≤ n → extract_version_suffix l = [] →
      excise_version_from_column_name l = l := by
  intro n
  induction n with
  | zero =>
    intro l hl _
    have : l = [] := List.length_eq_zero.mp (Nat.le_zero.mp hl)
    subst this; rfl
  | succ n ih =>
    intro l hl h
    cases l with
    | nil => rfl
    | cons c cs =>
      obtain ⟨hm, hcs⟩ := evs_nil_inv h
      simp only [List.length_cons] at hl
      rw [excise_cons_none hm, ih cs (by omega) hcs]

/-! ## Lemmas for the concept-ID claim (C5) -/

theorem cidAt_length {l ds rest : List Char} (h : cidAt l = some (ds, rest)) :
    rest.length + 2 ≤ l.length := by
  match l with
  | [] => simp [cidAt] at h
  | [c] => simp [cidAt] at h
  | d :: u :: r =>
    rw [show cidAt (d :: u :: r) =
        (if (d = 'd' ∨ d = 'D') ∧ u = '_' ∧ 9 ≤ r.length ∧ (r.take 9).all Char.isDigit
         then some (r.take 9, r.drop 9) else none) from rfl] at h
    split_ifs at h with h1
    injection h with h2
    injection h2 with _ h3
    rw [← h3]
    simp only [List.length_drop, List.length_cons]
    omega

theorem cidAt_eq_some {l ds rest : List Char} (h : cidAt l = some (ds, rest)) :
    ∃ d r, l = d :: '_' :: r ∧ (d = 'd' ∨ d = 'D') ∧ 9 ≤ r.length ∧
      (r.take 9).all Char.isDigit ∧ ds = r.take 9 ∧ rest = r.drop 9 := by
  match l with
  | [] => simp [cidAt] at h
  | [c] => simp [cidAt] at h
  | d :: u :: r =>
    rw [show cidAt (d :: u :: r) =
        (if (d = 'd' ∨ d = 'D') ∧ u = '_' ∧ 9 ≤ r.length ∧ (r.take 9).all Char.isDigit
         then some (r.take 9, r.drop 9) else none) from rfl] at h
    split_ifs at h with h1
    obtain ⟨hd, hu, hr9, hdig⟩ := h1
    injection h with h2
    injection h2 with h3 h4
    exact ⟨d, r, by rw [hu], hd, hr9, hdig, h3.symm, h4.symm⟩

theorem cidAt_none_head {c : Char} {cs : List Char} (h : ¬(c = 'd' ∨ c = 'D')) :
    cidAt (c :: cs) = none := by
  cases cs with
  | nil => rfl
  | cons u r =>
    rw [show cidAt (c :: u :: r) =
        (if (c = 'd' ∨ c = 'D') ∧ u = '_' ∧ 9 ≤ r.length ∧ (r.take 9).all Char.isDigit
         then some (r.take 9, r.drop 9) else none) from rfl]
    rw [if_neg]
    intro hc
    exact h hc.1

theorem spec_cids_cons (c : Char) (cs : List Char) :
    spec_ordered_concept_ids (c :: cs) =
      match cidAt (c :: cs) with
      | some (ds, _) => ds :: spec_ordered_concept_ids cs
      | none => spec_ordered_concept_ids cs := rfl

theorem spec_cids_skip {c : Char} {cs : List Char} (h : ¬(c = 'd' ∨ c = 'D')) :
    spec_ordered_concept_ids (c :: cs) = spec_ordered_concept_ids cs := by
  rw [spec_cids_cons, cidAt_none_head h]

theorem digit_not_dD {c : Char} (h : c.isDigit = true) : ¬(c = 'd' ∨ c = 'D') := by
  rintro (rfl | rfl) <;> simp [Char.isDigit] at h

theorem spec_cids_skip_digits :
    ∀ {ds r : List Char}, (∀ c ∈ ds, c.isDigit = true) →
      spec_ordered_concept_ids (ds ++ r) = spec_ordered_concept_ids r := by
  intro ds
  induction ds with
  | nil => intro r _; rfl
  | cons a as ih =>
    intro r h
    rw [List.cons_append,
        spec_cids_skip (digit_not_dD (h a (List.mem_cons_self a as))),
        ih fun c hc => h c (List.mem_cons_of_mem a hc)]

theorem cidsF_nil (f : Nat) : cidsF f [] = [] := by cases f <;> rfl

theorem cidsF_congr :
    ∀ (f g : Nat) (l : List Char), l.length ≤ f → l.length ≤ g → cidsF f l = cidsF g l := by
  intro f
  induction f with
  | zero =>
    intro g l hf _
    have : l = [] := List.length_eq_zero.mp (Nat.le_zero.mp hf)
    subst this; rw [cidsF_nil, cidsF_nil]
  | succ f ih =>
    intro g l hf hg
    cases l with
    | nil => rw [cidsF_nil, cidsF_nil]
    | cons c cs =>
      cases g with
      | zero => simp at hg
      | succ g =>
        show (match cidAt (c :: cs) with
              | some (ds, rest) => ds :: cidsF f rest
              | none => cidsF f cs) =
             (match cidAt (c :: cs) with
              | some (ds, rest) => ds :: cidsF g rest
              | none => cidsF g cs)
        cases hm : cidAt (c :: cs) with
        | some p =>
          obtain ⟨ds, rest⟩ := p
          have hlen := cidAt_length hm
          simp only [List.length_cons] at hf hg hlen
          dsimp only
          rw [ih g rest (by omega) (by omega)]
        | none =>
          simp only [List.length_cons] at hf hg
          dsimp only
          rw [ih g cs (by omega) (by omega)]

theorem cids_cons_some {c : Char} {cs ds rest : List Char}
    (h : cidAt (c :: cs) = some (ds, rest)) :
    extract_ordered_concept_ids (c :: cs) = ds :: extract_ordered_concept_ids rest := by
  have hlen := cidAt_length h
  show cidsF (cs.length + 1) (c :: cs) = ds :: cidsF rest.length rest
  have : cidsF (cs.length + 1) (c :: cs) = ds :: cidsF cs.length rest := by
    show (match cidAt (c :: cs) with
          | some (ds, rest) => ds :: cidsF cs.length rest
          | none => cidsF cs.length cs) = _
    rw [h]
  rw [this, cidsF_congr cs.length rest.length rest (by simp at hlen; omega) (Nat.le_refl _)]

theorem cids_cons_none {c : Char} {cs : List Char} (h : cidAt (c :: cs) = none) :
    extract_ordered_concept_ids (c :: cs) = extract_ordered_concept_ids cs := by
  show cidsF (cs.length + 1) (c :: cs) = cidsF cs.length cs
  show (match cidAt (c :: cs) with
        | some (ds, rest) => ds :: cidsF cs.length rest
        | none => cidsF cs.length cs) = _
  rw [h]

theorem cids_eq_spec_aux :
    ∀ (n : Nat) (l : List Char), l.length ≤ n →
      extract_ordered_concept_ids l = spec_ordered_concept_ids l := by
  intro n
  induction n with
  | zero =>
    intro l hl
    have : l = [] := List.length_eq_zero.mp (Nat.le_zero.mp hl)
    subst this; rfl
  | succ n ih =>
    intro l hl
    cases l with
    | nil => rfl
    | cons c cs =>
      cases hm : cidAt (c :: cs) with
      | some p =>
        obtain ⟨ds, rest⟩ := p
        obtain ⟨d, r, heq, -, hr9, hdig, hds, hrest⟩ := cidAt_eq_some hm
        injection heq with hd hcs
        rw [cids_cons_some hm, spec_cids_cons, hm]
        have hcs9 : spec_ordered_concept_ids cs = spec_ordered_concept_ids rest := by
          rw [hcs, spec_cids_skip (by decide)]
          have hrsplit : r = r.take 9 ++ r.drop 9 := (List.take_append_drop 9 r).symm
          conv_lhs => rw [hrsplit]
          rw [spec_cids_skip_digits (fun c hc => by
            have := List.all_eq_true.mp hdig c
            exact this hc), hrest]
        rw [hcs9]
        have hlenr := cidAt_length hm
        simp only [List.length_cons] at hl hlenr
        rw [ih rest (by omega)]
      | none =>
        simp only [List.length_cons] at hl
        rw [cids_cons_none hm, spec_cids_cons, hm]
        exact ih cs (by omega)

/-! ## Lemmas for the purity claim (C10) -/

theorem splitU_chars :
    ∀ (l : List Char), ∀ t ∈ splitU l, ∀ c ∈ t, c ∈ l ∧ c ≠ '_' := by
  intro l
  induction l with
  | nil =>
    intro t ht c hc
    simp only [splitU, List.mem_singleton] at ht
    subst ht; simp at hc
  | cons a cs ih =>
    intro t ht c hc
    by_cases ha : a = '_'
    · rw [show splitU (a :: cs) = [] :: splitU cs by rw [splitU, if_pos ha]] at ht
      rcases List.mem_cons.mp ht with rfl | ht2
      · simp at hc
      · obtain ⟨h1, h2⟩ := ih t ht2 c hc
        exact ⟨List.mem_cons_of_mem a h1, h2⟩
    · rw [show splitU (a :: cs) =
          (match splitU cs with
           | [] => [[a]]
           | t0 :: ts => (a :: t0) :: ts) by rw [splitU, if_neg ha]] at ht
      cases hsp : splitU cs with
      | nil =>
        rw [hsp] at ht
        simp only [List.mem_singleton] at ht
        subst ht
        rcases List.mem_singleton.mp hc with rfl
        exact ⟨List.mem_cons_self c cs, ha⟩
      | cons t0 ts =>
        rw [hsp] at ht
        rcases List.mem_cons.mp ht with rfl | ht2
        · rcases List.mem_cons.mp hc with rfl | hc2
          · exact ⟨List.mem_cons_self c cs, ha⟩
          · obtain ⟨h1, h2⟩ := ih t0 (hsp ▸ List.mem_cons_self t0 ts) c hc2
            exact ⟨List.mem_cons_of_mem a h1, h2⟩
        · obtain ⟨h1, h2⟩ := ih t (hsp ▸ List.mem_cons_of_mem t0 ht2) c hc
          exact ⟨List.mem_cons_of_mem a h1, h2⟩

theorem stripTok_all_ws {t : List Char} (h : ∀ c ∈ t, isWs c = true) :
    stripTok t = [] := by
  have h1 : t.dropWhile isWs = [] := by
    rw [List.dropWhile_eq_nil_iff]
    intro x hx
    exact h x hx
  rw [stripTok, h1]
  rfl

theorem lowerChar_plain {c : Char} (h : c = '_' ∨ c ∈ wsChars) : lowerChar c = c := by
  rcases h with rfl | h
  · decide
  · simp only [wsChars, List.mem_cons, List.not_mem_nil, or_false] at h
    rcases h with rfl | rfl | rfl | rfl | rfl | rfl <;> decide

theorem plain_head {l : List Char} (hl : ∀ c ∈ l, c = '_' ∨ isWs c = true)
    {c0 : Char} (hc0 : (lowerStr l).head? = some c0) : c0 = '_' ∨ c0 ∈ wsChars := by
  cases l with
  | nil => simp [lowerStr] at hc0
  | cons a l2 =>
    simp only [lowerStr, List.map_cons, List.head?_cons, Option.some.injEq] at hc0
    have ha : a = '_' ∨ a ∈ wsChars := by
      rcases hl a (List.mem_cons_self a l2) with h | h
      · exact Or.inl h
      · have h2 : List.elem a wsChars = true := h
        exact Or.inr (List.elem_iff.mp h2)
    rw [← hc0, lowerChar_plain ha]
    exact ha

/-! ## Lemmas for the table-merge claim (C3) -/

theorem coalesce_append {α : Type} (l1 l2 : List (Option α)) :
    coalesce_first_non_null (l1 ++ l2) =
      match coalesce_first_non_null l1 with
      | some b => some b
      | none => coalesce_first_non_null l2 := by
  induction l1 with
  | nil => rfl
  | cons v vs ih =>
    simp only [coalesce_first_non_null, List.cons_append, List.findSome?_cons] at *
    cases v with
    | some b => rfl
    | none => exact ih

theorem coalesce_singleton {α : Type} (v : Option α) :
    coalesce_first_non_null [v] = v := by
  cases v <;> rfl

theorem coalesce_reverse_lastSome {α : Type} (vals : List (Option α)) :
    coalesce_first_non_null vals.reverse = lastSome vals := by
  induction vals with
  | nil => rfl
  | cons v vs ih =>
    rw [List.reverse_cons, coalesce_append, ih, coalesce_singleton]
    rfl

/-! ## Lemmas for the grouping-order claim (C6) -/

theorem insertGroup_sublist {acc : List (GKey × List (List Char))} {k : GKey}
    {v : List Char} {pre : List (List Char)}
    (h : ∀ p ∈ acc, p.2.Sublist pre) :
    ∀ p ∈ insertGroup acc k v, p.2.Sublist (pre ++ [v]) := by
  induction acc with
  | nil =>
    intro p hp
    simp only [insertGroup, List.mem_singleton] at hp
    subst hp
    exact List.sublist_append_right pre [v]
  | cons e rest ih =>
    obtain ⟨k2, vs⟩ := e
    intro p hp
    rw [show insertGroup ((k2, vs) :: rest) k v =
        (if keyEq k k2 then (k2, vs ++ [v]) :: rest else (k2, vs) :: insertGroup rest k v)
        from rfl] at hp
    split_ifs at hp with hk
    · rcases List.mem_cons.mp hp with rfl | hp2
      · exact (h (k2, vs) (List.mem_cons_self _ _)).append (List.Sublist.refl [v])
      · exact (h p (List.mem_cons_of_mem _ hp2)).trans (List.sublist_append_left pre [v])
    · rcases List.mem_cons.mp hp with rfl | hp2
      · exact (h (k2, vs) (List.mem_cons_self _ _)).trans (List.sublist_append_left pre [v])
      · exact ih (fun q hq => h q (List.mem_cons_of_mem _ hq)) p hp2

theorem groupFold_sublist :
    ∀ (vs : List (List Char)) (acc : List (GKey × List (List Char)))
      (pre : List (List Char)),
      (∀ p ∈ acc, p.2.Sublist pre) →
      ∀ p ∈ vs.foldl (fun acc v =>
          match varKey v with
          | some k => insertGroup acc k v
          | none => acc) acc,
        p.2.Sublist (pre ++ vs) := by
  intro vs
  induction vs with
  | nil =>
    intro acc pre h p hp
    rw [List.append_nil]
    exact h p hp
  | cons v vs2 ih =>
    intro acc pre h p hp
    rw [List.foldl_cons] at hp
    have hstep : ∀ q ∈ (match varKey v with
        | some k => insertGroup acc k v
        | none => acc), q.2.Sublist (pre ++ [v]) := by
      cases hk : varKey v with
      | some k => exact insertGroup_sublist h
      | none =>
        intro q hq
        exact (h q hq).trans (List.sublist_append_left pre [v])
    have := ih _ (pre ++ [v]) hstep p hp
    rwa [List.append_assoc, List.singleton_append] at this

/-! ## Invariant of the guarded emit loop (C1) -/

theorem emitGuarded_inv {β : Type} (mk : β → (List Char × List Char) × List (List Char)) :
    ∀ (items : List β) (processed : List (List Char)),
      (∀ x ∈ (emitGuarded mk items processed).1, lowerStr x.1 ∉ processed) ∧
      ((emitGuarded mk items processed).1.map (fun x => lowerStr x.1)).Nodup ∧
      (∀ q ∈ processed, q ∈ (emitGuarded mk items processed).2) ∧
      (∀ x ∈ (emitGuarded mk items processed).1, lowerStr x.1 ∈ (emitGuarded mk items processed).2) := by
  intro items
  induction items with
  | nil =>
    intro processed
    refine ⟨?_, ?_, ?_, ?_⟩ <;> simp [emitGuarded]
  | cons b rest ih =>
    intro processed
    have hunf : emitGuarded mk (b :: rest) processed =
        (if lowerStr (mk b).1.1 ∈ processed then emitGuarded mk rest processed
         else ((mk b).1 :: (emitGuarded mk rest (processed ++ lowerStr (mk b).1.1 :: (mk b).2)).1,
               (emitGuarded mk rest (processed ++ lowerStr (mk b).1.1 :: (mk b).2)).2)) := rfl
    by_cases hmem : lowerStr (mk b).1.1 ∈ processed
    · rw [hunf, if_pos hmem]
      exact ih processed
    · rw [hunf, if_neg hmem]
      obtain ⟨ih1, ih2, ih3, ih4⟩ := ih (processed ++ lowerStr (mk b).1.1 :: (mk b).2)
      have hnamein : lowerStr (mk b).1.1 ∈ processed ++ lowerStr (mk b).1.1 :: (mk b).2 :=
        List.mem_append_right _ (List.mem_cons_self _ _)
      refine ⟨?_, ?_, ?_, ?_⟩
      · intro x hx
        rcases List.mem_cons.mp hx with rfl | hx2
        · exact hmem
        · intro hq
          exact ih1 x hx2 (List.mem_append_left _ hq)
      · rw [List.map_cons, List.nodup_cons]
        refine ⟨?_, ih2⟩
        intro hmm
        obtain ⟨x, hx, hfx⟩ := List.mem_map.mp hmm
        exact ih1 x hx (hfx ▸ hnamein)
      · intro q hq
        exact ih3 q (List.mem_append_left _ hq)
      · intro x hx
        rcases List.mem_cons.mp hx with rfl | hx2
        · exact ih3 _ hnamein
        · exact ih4 x hx2

/-- Chaining two guarded emit passes keeps the emitted output names
case-insensitively distinct and fresh with respect to any subset of the
initial processed set. -/
theorem emitGuarded_chain {β γ : Type}
    (mkA : β → (List Char × List Char) × List (List Char))
    (mkB : γ → (List Char × List Char) × List (List Char))
    (itemsA : List β) (itemsB : List γ)
    (p0 p1 : List (List Char)) (hsub : ∀ q ∈ p0, q ∈ p1) :
    (((emitGuarded mkA itemsA p1).1 ++
        (emitGuarded mkB itemsB (emitGuarded mkA itemsA p1).2).1).map
          (fun x => lowerStr x.1)).Nodup ∧
    ∀ x ∈ (emitGuarded mkA itemsA p1).1 ++
        (emitGuarded mkB itemsB (emitGuarded mkA itemsA p1).2).1,
      lowerStr x.1 ∉ p0 := by
  obtain ⟨a1, a2, a3, a4⟩ := emitGuarded_inv mkA itemsA p1
  obtain ⟨b1, b2, b3, b4⟩ := emitGuarded_inv mkB itemsB (emitGuarded mkA itemsA p1).2
  constructor
  · rw [List.map_append, List.nodup_append]
    refine ⟨a2, b2, ?_⟩
    intro a ha hb
    obtain ⟨x, hx, rfl⟩ := List.mem_map.mp ha
    obtain ⟨y, hy, hfy⟩ := List.mem_map.mp hb
    exact b1 y hy (by rw [hfy]; exact a4 x hx)
  · intro x hx
    rcases List.mem_append.mp hx with hx2 | hx2
    · intro hq
      exact a1 x hx2 (hsub _ hq)
    · intro hq
      exact b1 x hx2 (a3 _ (hsub _ hq))

/-! ## The claims -/

/-- Claim C1, counterexample: `compose_coalesce_loop_variable_query` performs
no output-name duplicate check, so the plan for the pure columns
`d_123456789_1_1` (a loop variable renamed to `d_123456789_1`) and
`d_123456789_1` (a non-loop passthrough) contains two clauses with the same
output name `d_123456789_1` — the later clause is emitted, not dropped. -/
theorem compose_plan_duplicate_output_names :
    compose_coalesce_plan [s2l "d_123456789_1_1", s2l "d_123456789_1"] =
      some [(s2l "d_123456789_1", s2l "d_123456789_1_1 AS d_123456789_1"),
            (s2l "d_123456789_1", s2l "d_123456789_1")] ∧
    ¬ (((compose_coalesce_plan [s2l "d_123456789_1_1", s2l "d_123456789_1"]).getD []).map
        (fun p => lowerStr p.1)).Nodup := by
  constructor
  · decide
  · decide

/-- Claim C1 (amended): the `process_columns` path
(`build_loop_variable_clauses`) does enforce the uniqueness invariant — for
every input column list and initial processed set, the emitted clauses carry
pairwise distinct lower-cased output names, and none of them collides with an
already-claimed (processed) name; a colliding clause is skipped, never
emitted. -/
theorem build_loop_variable_clauses_unique_output_names
    (cols : List (List Char)) (processed : List (List Char)) :
    ((build_loop_variable_clauses cols processed).1.map (fun x => lowerStr x.1)).Nodup ∧
    ∀ x ∈ (build_loop_variable_clauses cols processed).1, lowerStr x.1 ∉ processed := by
  exact emitGuarded_chain mkLoopPair mkNonLoopPair _ _ processed _
    (fun q hq => List.mem_append_left _ hq)

/-- Claim C2, counterexample: `build_loop_variable_clauses` does not raise on
an impure column — it logs, marks the column processed, and builds a plan
omitting it.  With the impure `D_907590067_4_4_SIBCANC3O_D_650332509_4` and
the pure `d_123456789_1_1` in the table, a plan is produced whose sole clause
handles the pure column; the impure one is silently absent. -/
theorem build_clauses_skips_impure_without_error :
    build_loop_variable_clauses
        [s2l "D_907590067_4_4_SIBCANC3O_D_650332509_4", s2l "d_123456789_1_1"] [] =
      ([(s2l "d_123456789_1", s2l "d_123456789_1_1 AS d_123456789_1")],
       [s2l "d_907590067_4_4_sibcanc3o_d_650332509_4", s2l "d_123456789_1",
        s2l "d_123456789_1_1"]) ∧
    is_pure_variable (s2l "D_907590067_4_4_SIBCANC3O_D_650332509_4") = false := by
  constructor
  · decide
  · decide

/-- Claim C2 (amended): only `compose_coalesce_loop_variable_query` fails the
whole table on an impure column: whenever some lower-cased column name is
impure, the composed plan is an error (`none`), and no projection plan is
produced. -/
theorem compose_plan_rejects_impure_table (cols0 : List (List Char)) (v : List Char)
    (hv : v ∈ cols0.map compose_normalize) (himp : is_pure_variable v = false) :
    compose_coalesce_plan cols0 = none := by
  show (if (cols0.map compose_normalize).all is_pure_variable
        then some (composePairs (cols0.map compose_normalize)) else none) = none
  rw [if_neg]
  intro hall
  have := List.all_eq_true.mp hall v hv
  rw [himp] at this
  exact Bool.false_ne_true this

/-- Witness for the amended claim C2 at a concrete impure table. -/
theorem compose_plan_rejects_impure_table_witness :
    s2l "d_907590067_4_4_sibcanc3o_d_650332509_4" ∈
      ([s2l "D_907590067_4_4_SIBCANC3O_D_650332509_4"].map compose_normalize) ∧
    is_pure_variable (s2l "d_907590067_4_4_sibcanc3o_d_650332509_4") = false ∧
    compose_coalesce_plan [s2l "D_907590067_4_4_SIBCANC3O_D_650332509_4"] = none :=
  ⟨by decide, by decide,
   compose_plan_rejects_impure_table [s2l "D_907590067_4_4_SIBCANC3O_D_650332509_4"]
     (s2l "d_907590067_4_4_sibcanc3o_d_650332509_4") (by decide) (by decide)⟩

/-- Claim C3, counterexample: with tables aliased `v1, v2` (in listed order)
the outer-join renderer emits `COALESCE(v2.d_1, v1.d_1)`, so the first
non-null candidate taken by COALESCE is the LATEST-listed table's column,
not the earliest-listed one as the claim states. -/
theorem outer_join_coalesce_latest_first_cex :
    outer_join_coalesce_args [s2l "v1", s2l "v2"] (s2l "d_1") =
      [s2l "v2.d_1", s2l "v1.d_1"] ∧
    outer_join_coalesce_clause [s2l "v1", s2l "v2"] (s2l "d_1") =
      s2l "COALESCE(v2.d_1, v1.d_1) AS d_1" ∧
    coalesce_first_non_null
        ((outer_join_coalesce_args [s2l "v1", s2l "v2"] (s2l "d_1")).map some) =
      some (s2l "v2.d_1") ∧
    s2l "v2.d_1" ≠ s2l "v1.d_1" := by
  refine ⟨by decide, by decide, by decide, by decide⟩

/-- Claim C3 (amended): `create_or_replace_table_with_outer_join` orders the
COALESCE arguments in reverse table order, so the value taken is the LAST
listed table's non-null column (latest-listed wins ties); by contrast
`merge_table_versions` lists the parts in table order. -/
theorem outer_join_coalesce_reverse_order_latest_wins
    (aliases : List (List Char)) (col : List Char)
    (caseOf : List Char → List Char) (v : List Char → Option (List Char)) :
    outer_join_coalesce_args aliases col =
      (aliases.map (fun al => al ++ '.' :: col)).reverse ∧
    coalesce_first_non_null ((outer_join_coalesce_args aliases col).map v) =
      lastSome ((aliases.map (fun al => al ++ '.' :: col)).map v) ∧
    merge_coalesce_parts aliases caseOf = aliases.map (fun al => al ++ '.' :: caseOf al) := by
  refine ⟨List.map_reverse _ _, ?_, rfl⟩
  show coalesce_first_non_null ((aliases.reverse.map (fun al => al ++ '.' :: col)).map v) = _
  rw [List.map_map, List.map_reverse, coalesce_reverse_lastSome, List.map_map]

/-- Claim C4, counterexample: in `d_1_1_v2_5_5` the first repeated pair of
the version-stripped form `d_1_1_5_5` is `_1_1`, so the claim demands 1; but
the code's Case 1 gives the version-adjacent pattern `_v2_5_5` priority and
returns 5. -/
theorem extract_loop_number_version_pattern_priority_cex :
    extract_loop_number (s2l "d_1_1_v2_5_5") = some 5 ∧
    spec_loop_number (s2l "d_1_1_v2_5_5") = some 1 ∧
    pairScanStrict (excise_version_from_column_name (s2l "d_1_1_v2_5_5")) = some (s2l "1") := by
  refine ⟨by decide, by decide, by decide⟩

/-- Claim C4 (amended): on any name with no version token at all,
`extract_loop_number` returns exactly the claim's value — the first `_N_N`
of the (unchanged) version-stripped form, with the trailing fallback, `none`
when neither exists.  When a version token is present, the version-adjacent
pattern `_vK_N_N` takes priority over an earlier plain pair. -/
theorem extract_loop_number_matches_spec_without_version (l : List Char)
    (h : extract_version_suffix l = []) :
    extract_loop_number l = spec_loop_number l := by
  show (match case1Scan l with
        | some n => some n
        | none =>
          let cleaned := excise_version_from_column_name l
          match pairScanStrict cleaned with
          | some ds => some (digitsToNat ds)
          | none => if pairScanLoose cleaned then trailingNum cleaned else none) =
      spec_loop_number l
  rw [case1Scan_none_of_evs h]
  rfl

/-- Witness for the amended claim C4 at a concrete version-free name. -/
theorem extract_loop_number_matches_spec_without_version_witness :
    extract_version_suffix (s2l "d_123456789_2_2") = [] ∧
    extract_loop_number (s2l "d_123456789_2_2") = spec_loop_number (s2l "d_123456789_2_2") :=
  ⟨by decide, extract_loop_number_matches_spec_without_version _ (by decide)⟩

/-- Claim C5, counterexample: a `d_` prefix followed by a TEN-digit run does
contribute a concept ID — the first nine digits — because the source pattern
`[dD]_(\d{9})` has no boundary lookahead; the claim says such a run
contributes nothing. -/
theorem extract_ordered_concept_ids_coerces_long_runs :
    extract_ordered_concept_ids (s2l "d_1234567890") = [s2l "123456789"] ∧
    extract_ordered_concept_ids (s2l "d_1234567890") ≠ [] := by
  refine ⟨by decide, by decide⟩

/-- Claim C5 (amended): `extract_ordered_concept_ids` equals the
position-wise collection that, at every position with a `d`/`D`, an
underscore and at least nine following digits, takes the first nine digits —
in order of appearance with duplicates preserved; runs shorter than nine
digits contribute nothing. -/
theorem extract_ordered_concept_ids_positionwise (l : List Char) :
    extract_ordered_concept_ids l = spec_ordered_concept_ids l :=
  cids_eq_spec_aux l.length l (Nat.le_refl _)

/-- Claim C6, counterexample: the COALESCE argument list of the single-table
renderer keeps the input order of the group members
(`d_123456789_2_2_2_2` before `d_123456789_2_2`), which is not the
lexicographically sorted order the claim demands. -/
theorem compose_coalesce_args_not_sorted_cex :
    compose_coalesce_plan [s2l "d_123456789_2_2_2_2", s2l "d_123456789_2_2"] =
      some [(s2l "d_123456789_2",
             s2l "COALESCE(d_123456789_2_2_2_2, d_123456789_2_2) AS d_123456789_2")] ∧
    isort lexLe [s2l "d_123456789_2_2_2_2", s2l "d_123456789_2_2"] =
      [s2l "d_123456789_2_2", s2l "d_123456789_2_2_2_2"] ∧
    s2l "COALESCE(d_123456789_2_2_2_2, d_123456789_2_2) AS d_123456789_2" ≠
      s2l "COALESCE(d_123456789_2_2, d_123456789_2_2_2_2) AS d_123456789_2" := by
  refine ⟨by decide, by decide, by decide⟩

/-- Claim C6 (amended): the members of every loop-variable group — and hence
the COALESCE argument list rendered from them verbatim — appear in the order
the columns appeared in the input list (a sublist of the input), not in
sorted order. -/
theorem group_members_preserve_input_order (vs : List (List Char))
    (p : GKey × List (List Char)) (h : p ∈ group_vars_by_cid_and_loop_num vs) :
    p.2.Sublist vs := by
  have h2 : p ∈ vs.foldl (fun acc v =>
      match varKey v with
      | some k => insertGroup acc k v
      | none => acc) [] := h
  have := groupFold_sublist vs [] []
    (fun q hq => absurd hq (List.not_mem_nil q)) p h2
  simpa using this

/-- Witness for the amended claim C6 at a concrete two-member group. -/
theorem group_members_preserve_input_order_witness :
    (([s2l "123456789"], 2, ([] : List Char)),
        [s2l "d_123456789_2_2_2_2", s2l "d_123456789_2_2"]) ∈
      group_vars_by_cid_and_loop_num [s2l "d_123456789_2_2_2_2", s2l "d_123456789_2_2"] ∧
    List.Sublist [s2l "d_123456789_2_2_2_2", s2l "d_123456789_2_2"]
      [s2l "d_123456789_2_2_2_2", s2l "d_123456789_2_2"] :=
  ⟨by decide,
   group_members_preserve_input_order [s2l "d_123456789_2_2_2_2", s2l "d_123456789_2_2"]
     (([s2l "123456789"], 2, ([] : List Char)),
      [s2l "d_123456789_2_2_2_2", s2l "d_123456789_2_2"]) (by decide)⟩

/-- Claim C7, counterexample: for a name with two version tokens the code
removes BOTH (`re.sub` replaces every occurrence), while the claim demands
only the first be removed and predicts `d_v3`. -/
theorem excise_version_removes_all_tokens_cex :
    excise_version_from_column_name (s2l "d_v2_v3") = s2l "d" ∧
    strip_first_version (s2l "d_v2_v3") = s2l "d_v3" ∧
    s2l "d" ≠ s2l "d_v3" := by
  refine ⟨by decide, by decide, by decide⟩

/-- Claim C7 (amended): `excise_version_from_column_name` removes EVERY
non-overlapping version-token occurrence left to right; equivalently it
equals the repeated application, to a fixpoint, of removing the single
occurrence identified by `extract_version_suffix`. -/
theorem excise_version_eq_iterated_first_strip (l : List Char) :
    excise_version_from_column_name l = strip_version_iter l :=
  (stripIterF_eq_excise l.length l (Nat.le_refl _)).symm

/-- Claim C8: version stripping is idempotent — applying
`excise_version_from_column_name` twice gives the same result as applying it
once, for every column name. -/
theorem excise_version_idempotent (l : List Char) :
    excise_version_from_column_name (excise_version_from_column_name l) =
      excise_version_from_column_name l :=
  excise_idem_aux l.length l (Nat.le_refl _)

/-- Claim C9: version stripping leaves no detectable version token behind —
`extract_version_suffix` of the stripped name is always the empty string,
including for tokens that might have formed at the join points of removed
segments. -/
theorem extract_version_suffix_of_excised_eq_nil (l : List Char) :
    extract_version_suffix (excise_version_from_column_name l) = [] :=
  evs_excise_aux l.length l (Nat.le_refl _)

/-- Claim C10: every string consisting only of underscores and whitespace
characters (including the empty string) is classified pure: each token is
empty after stripping and is skipped, the per-token check passes vacuously,
and no forbidden-name lookup matches such a string. -/
theorem is_pure_variable_underscore_whitespace (l : List Char)
    (h : ∀ c ∈ l, c = '_' ∨ isWs c = true) :
    is_pure_variable l = true := by
  show (if ALLOWED_NON_CID_VARIABLE_NAMES.contains (lowerStr l) && !(lowerStr l).isEmpty then true
        else if FORBIDDEN_NON_CID_VARIABLE_NAMES.contains (lowerStr l) then false
        else (splitU l).all tokenOk) = true
  split_ifs with h1 h2
  · rfl
  · exfalso
    have hmem : lowerStr l ∈ FORBIDDEN_NON_CID_VARIABLE_NAMES := List.elem_iff.mp h2
    have hforb : ∀ w ∈ FORBIDDEN_NON_CID_VARIABLE_NAMES,
        ∀ c ∈ ('_' :: wsChars), w.head? ≠ some c ∧ w ≠ [] := by decide
    cases hh : (lowerStr l).head? with
    | none =>
      exact (hforb _ hmem '_' (List.mem_cons_self _ _)).2 (List.head?_eq_none_iff.mp hh)
    | some c0 =>
      have hc0 : c0 ∈ ('_' :: wsChars) := by
        rcases plain_head h hh with rfl | hw
        · exact List.mem_cons_self _ _
        · exact List.mem_cons_of_mem _ hw
      exact (hforb _ hmem c0 hc0).1 hh
  · rw [List.all_eq_true]
    intro t ht
    have hws : ∀ c ∈ t, isWs c = true := by
      intro c hc
      obtain ⟨hcl, hcu⟩ := splitU_chars l t ht c hc
      rcases h c hcl with rfl | hw
      · exact absurd rfl hcu
      · exact hw
    have hstrip : stripTok t = [] := stripTok_all_ws hws
    simp [tokenOk, hstrip]

/-- Witness for claim C10 at a concrete underscore-and-whitespace string. -/
theorem is_pure_variable_underscore_whitespace_witness :
    (∀ c ∈ s2l "_ _", c = '_' ∨ isWs c = true) ∧
    is_pure_variable (s2l "_ _") = true :=
  ⟨by decide, is_pure_variable_underscore_whitespace _ (by decide)⟩

end PR2

